import Mathlib

/-!
Shallow embedding of the Read Later feed-sync plugin (src/main.ts).

Strings are modelled as `List Char`; JavaScript string operations
(`includes`, `startsWith`, `trimEnd`, `split("\n")`, `join("\n")`,
`toLowerCase`) are modelled by executable functions below.  JavaScript
`Date` values are modelled as `Option Int` (epoch milliseconds; `none`
is the invalid date `NaN`, for which every `<` comparison is false).
`Date.prototype.toISOString().split("T")[0]` is modelled by a concrete
proleptic-Gregorian conversion from epoch milliseconds.
-/

namespace ReadLater

/-- Character strings, modelled as lists of characters. -/
abbrev Str := List Char

/-- Embed a Lean string literal as a `Str`. -/
def lit (s : String) : Str := s.data

/-- Whitespace test used by the model of JavaScript `trimEnd`: the full
ECMAScript WhiteSpace and LineTerminator productions — TAB, LF, VT, FF, CR,
SP, NBSP, ZWNBSP (U+FEFF), LS (U+2028), PS (U+2029) and every Unicode
space-separator (U+1680, U+2000..U+200A, U+202F, U+205F, U+3000). -/
def isWs (c : Char) : Bool :=
  let n := c.toNat
  n = 0x09 || n = 0x0A || n = 0x0B || n = 0x0C || n = 0x0D || n = 0x20 ||
    n = 0xA0 || n = 0x1680 || (0x2000 ≤ n && n ≤ 0x200A) || n = 0x2028 ||
    n = 0x2029 || n = 0x202F || n = 0x205F || n = 0x3000 || n = 0xFEFF

/-- Model of JavaScript `String.prototype.trimEnd`: remove the maximal
all-whitespace suffix. -/
def trimEnd (s : Str) : Str :=
  (s.reverse.dropWhile isWs).reverse

/-- Boolean test that `pat` is a prefix of `s`
(model of JavaScript `String.prototype.startsWith`). -/
def startsWithStr (s pat : Str) : Bool :=
  match pat, s with
  | [], _ => true
  | _ :: _, [] => false
  | a :: pas, b :: bs => a = b && startsWithStr bs pas

/-- Boolean substring test (model of JavaScript `String.prototype.includes`,
which Obsidian aliases as `String.prototype.contains`):
true iff `pat` occurs contiguously inside `s`; the empty pattern always occurs. -/
def containsStr (s pat : Str) : Bool :=
  startsWithStr s pat ||
    match s with
    | [] => false
    | _ :: rest => containsStr rest pat

/-- Model of JavaScript `String.prototype.toLowerCase` (ASCII-adequate). -/
def toLowerStr (s : Str) : Str := s.map Char.toLower

/-- Model of JavaScript `content.split("\n")`. -/
def splitLines : Str → List Str
  | [] => [[]]
  | c :: cs =>
    if c = '\n' then [] :: splitLines cs
    else
      match splitLines cs with
      | [] => [[c]]
      | l :: ls => (c :: l) :: ls

/-- Model of JavaScript `lines.join("\n")`. -/
def joinLines : List Str → Str
  | [] => []
  | [l] => l
  | l :: ls => l ++ '\n' :: joinLines ls

/-- Decimal digits of a natural number, two places, zero-padded. -/
def pad2 (n : Nat) : Str :=
  if n < 10 then lit ("0") ++ (toString n).data else (toString n).data

/-- Decimal digits of a natural number, four places, zero-padded. -/
def pad4 (n : Nat) : Str :=
  if n < 10 then lit ("000") ++ (toString n).data
  else if n < 100 then lit ("00") ++ (toString n).data
  else if n < 1000 then lit ("0") ++ (toString n).data
  else (toString n).data

/-- Model of `date.toISOString().split("T")[0]` for a valid `Date` holding
`t` epoch milliseconds: the proleptic-Gregorian civil date `YYYY-MM-DD`
(civil-from-days algorithm). -/
def isoDatePart (t : Int) : Str :=
  let day := Int.fdiv t 86400000
  let z := day + 719468
  let era := Int.fdiv z 146097
  let doe := (z - era * 146097).toNat
  let yoe := (doe - doe / 1460 + doe / 36524 - doe / 146096) / 365
  let doy := doe - (365 * yoe + yoe / 4 - yoe / 100)
  let mp := (5 * doy + 2) / 153
  let d := doy - (153 * mp + 2) / 5 + 1
  let m := if mp < 10 then mp + 3 else mp - 9
  let y := (yoe : Int) + era * 400 + (if m ≤ 2 then 1 else 0)
  pad4 y.toNat ++ lit ("-") ++ pad2 m ++ lit ("-") ++ pad2 d


/-- A raw feed item as seen by `fetchFeedEntries` (`feed.entries` element):
`link` and `title` may be absent, and `published` is the epoch-millisecond
value of `new Date(entry.published ?? "")` (`none` models the invalid date
produced by an absent or unparseable timestamp). -/
structure RawEntry where
  link : Option Str
  title : Option Str
  published : Option Int
  deriving DecidableEq

/-- The normalized `Entry` record of src/main.ts. -/
structure Entry where
  domain : Str
  link : Str
  title : Str
  date : Option Int
  deriving DecidableEq

/-- The plugin's URL blacklist (`blacklistedURLs` field). -/
def blacklistedURLs : List Str :=
  [lit ("www.theatlantic.com"), lit ("www.wsj.com"), lit ("arxiv.org")]

/-- The plugin's title blacklist (`blacklistedStrings` field). -/
def blacklistedStrings : List Str :=
  [lit ("hiring")]

/-- Translation of `isBlacklisted(url, title)`: each argument is checked only
when truthy (present and non-empty), lowercased, and tested for containment
of each blacklist element. -/
def isBlacklisted (url title : Option Str) : Bool :=
  (match url with
   | some u => !u.isEmpty &&
       blacklistedURLs.any (fun b => containsStr (toLowerStr u) b)
   | none => false) ||
  (match title with
   | some t => !t.isEmpty &&
       blacklistedStrings.any (fun b => containsStr (toLowerStr t) b)
   | none => false)

/-- JavaScript `entryDate.getTime() < lastSynced.getTime()` where `entryDate`
may be the invalid date: every numeric comparison against `NaN` is false. -/
def dateLtB : Option Int → Int → Bool
  | none, _ => false
  | some t, w => decide (t < w)

/-- Comparison of two modelled `Date` values used to state ordering claims:
`x` is no later than `y`; comparisons involving the invalid date are
vacuously accepted. -/
def dateLeB : Option Int → Option Int → Bool
  | some x, some y => decide (x ≤ y)
  | _, _ => true

/-- The record pushed by the loop of `fetchFeedEntries`: absent link/title
default to the empty string. -/
def normalizeEntry (domain : Str) (e : RawEntry) : Entry :=
  { domain := domain
    link := e.link.getD []
    title := e.title.getD []
    date := e.published }

/-- Translation of the filtering loop of `fetchFeedEntries` (src/main.ts
lines 151-168): skip entries older than the watermark, skip blacklisted
entries, normalize and keep the rest in order. -/
def fetchFeedEntriesLoop (domain : Str) (lastSynced : Int) :
    List RawEntry → List Entry
  | [] => []
  | e :: rest =>
    if dateLtB e.published lastSynced then
      fetchFeedEntriesLoop domain lastSynced rest
    else if isBlacklisted e.link e.title then
      fetchFeedEntriesLoop domain lastSynced rest
    else
      normalizeEntry domain e :: fetchFeedEntriesLoop domain lastSynced rest

/-- Modelled from the spec: the Entry Filter of spec §4.2 keeps exactly the
entries with `published >= watermark` (under JavaScript comparison semantics,
false when `published` is the invalid date) that are not blacklisted. -/
def specTimeGeB : Option Int → Int → Bool
  | none, _ => false
  | some t, w => decide (w ≤ t)

/-- Modelled from the spec: spec §4.2 Entry Filter as literally worded
(`published >= watermark` AND not blacklisted, order preserved), for
comparison with `fetchFeedEntriesLoop`. -/
def specFilterEntries (domain : Str) (lastSynced : Int)
    (es : List RawEntry) : List Entry :=
  (es.filter (fun e =>
      specTimeGeB e.published lastSynced && !isBlacklisted e.link e.title)).map
    (normalizeEntry domain)

/-- The checklist line built by `mergeEntriesWithContent` for one entry whose
`Date` is valid and holds `t` epoch milliseconds (an invalid date never
reaches this template — `toISOString` throws first, see `mergeLoop`): title
falls back to the ISO date portion when empty, then
`"\n- [ ] [title](link) [site:: domain] ➕ date\n"`. -/
def newEntryLine (e : Entry) (t : Int) : Str :=
  let title := if e.title.isEmpty then isoDatePart t else e.title
  let date := lit (" ➕ ") ++ isoDatePart t
  lit ("\n- [ ] [") ++ title ++ lit ("](") ++ e.link ++
    lit (") [site:: ") ++ e.domain ++ lit ("]") ++ date ++ lit ("\n")

/-- One insertion step of the merge loop, for an entry paired with its valid
timestamp: `content = content.trimEnd() + newEntry`. -/
def insertStep (content : Str) (p : Entry × Int) : Str :=
  trimEnd content ++ newEntryLine p.1 p.2

/-- The body of the `for (const entry of entries.reverse())` loop of
`mergeEntriesWithContent`: skip an entry whose link the content already
contains, else append its checklist line to the trimmed content.  Inserting
an entry whose date is invalid calls `entry.date.toISOString()` on an invalid
`Date`, which throws a `RangeError` that nothing in `run` catches: the throw
is modelled by `none`, and then no content is returned at all. -/
def mergeLoop : List Entry → Str → Option Str
  | [], content => some content
  | e :: rest, content =>
    if containsStr content e.link then mergeLoop rest content
    else
      match e.date with
      | none => none
      | some t => mergeLoop rest (insertStep content (e, t))

/-- Translation of `mergeEntriesWithContent(entries, content)` (src/main.ts
lines 173-196): iterate over the reversed entry list; `none` models the
uncaught `RangeError` thrown while rendering an invalid date.  The counter it
keeps (`totalNewEntries`) does not affect the returned content and is not
modelled. -/
def mergeEntriesWithContent (entries : List Entry) (content : Str) :
    Option Str :=
  mergeLoop entries.reverse content

/-- The entries the merge loop actually inserts before returning or throwing,
in insertion order, each paired with its valid timestamp. -/
def insertedEntries : List Entry → Str → List (Entry × Int)
  | [], _ => []
  | e :: rest, content =>
    if containsStr content e.link then insertedEntries rest content
    else
      match e.date with
      | none => []
      | some t => (e, t) :: insertedEntries rest (insertStep content (e, t))

/-- Whether the merge loop throws: it reaches an entry whose link is not yet
in the content but whose date is invalid. -/
def mergeThrows : List Entry → Str → Bool
  | [], _ => false
  | e :: rest, content =>
    if containsStr content e.link then mergeThrows rest content
    else
      match e.date with
      | none => true
      | some t => mergeThrows rest (insertStep content (e, t))

/-- The keep-predicate of `removeOldEntries`: keep a line unless it starts
with `"- [x]"` and lacks the token `"✅ <currentDate>"`. -/
def keepLine (currentDate : Str) (l : Str) : Bool :=
  !startsWithStr l (lit ("- [x]")) ||
    containsStr l (lit ("✅ ") ++ currentDate)

/-- Translation of `removeOldEntries(content, currentTime)` (src/main.ts
lines 215-231): split into lines, keep the lines `keepLine` accepts,
join with newlines. -/
def removeOldEntries (content : Str) (currentTime : Int) : Str :=
  let currentDate := isoDatePart currentTime
  joinLines ((splitLines content).filter (keepLine currentDate))

/-- The scheduling gate of `run` (src/main.ts lines 50-55): a file is due
when `now` is not before `lastSynced` plus one hour (in milliseconds). -/
def isDue (now lastSynced : Int) : Bool :=
  let nextSync := lastSynced + 60 * 60 * 1000
  !decide (now < nextSync)

/-- The per-document state the sync cycle touches: the
`readlater_synced` frontmatter value (epoch milliseconds, absent allowed),
the `readlater_feeds` frontmatter value, and the file content. -/
structure Doc where
  syncedMeta : Option Int
  feeds : Option (List String)
  content : Str
  deriving DecidableEq

/-- Translation of `getSyncedTime`: the stored value, defaulting to one year
before the current clock reading when absent. -/
def getSyncedTime (dateNow : Int) (syncedMeta : Option Int) : Int :=
  match syncedMeta with
  | some t => t
  | none => dateNow - 1 * 365 * 24 * 60 * 60 * 1000

/-- The entry-collection loop of `run` (src/main.ts lines 65-79): push each
feed's entries; a feed whose fetch throws (`none` from the oracle) is caught,
logged and skipped, contributing no entries. -/
def collectEntries (fetch : String → Option (List Entry)) :
    List String → List Entry
  | [] => []
  | f :: rest => ((fetch f).getD []) ++ collectEntries fetch rest

/-- Outcome of one document's processing: the document's on-disk state
afterwards, and whether `run` aborted at this document with an uncaught
exception (in which case nothing was written and the loop stops). -/
structure CycleResult where
  doc : Doc
  crashed : Bool
  deriving DecidableEq

/-- Translation of the per-document body of `run` (src/main.ts lines 44-100).
`fetch` abstracts `fetchFeedEntries` for this document's watermark (`none`
models a thrown fetch/parse error, caught per feed); `updateOk` is false when
`processFrontMatter` throws inside `updateSyncedTime`, which is caught and
leaves the stored watermark unchanged.  A `RangeError` thrown by the merge
(invalid date on a fresh-linked entry) is not caught anywhere in `run`: the
document keeps its old content and watermark and the result is marked
crashed.  Writing content only when changed is observationally the same as
always storing the cleaned content. -/
def processDoc (now dateNow : Int) (fetch : String → Option (List Entry))
    (updateOk : Bool) (doc : Doc) : CycleResult :=
  let lastSynced := getSyncedTime dateNow doc.syncedMeta
  let nextSync := lastSynced + 60 * 60 * 1000
  if now < nextSync then ⟨doc, false⟩
  else
    match doc.feeds with
    | none => ⟨doc, false⟩
    | some feeds =>
      let entries := collectEntries fetch feeds
      match mergeEntriesWithContent entries doc.content with
      | none => ⟨doc, true⟩
      | some mergedContent =>
        let cleanedContent := removeOldEntries mergedContent now
        ⟨{ doc with
            content := cleanedContent
            syncedMeta := if updateOk then some now else doc.syncedMeta },
          false⟩

/-! ### String lemmas -/

theorem startsWithStr_iff {p s : Str} : startsWithStr s p = true ↔ p <+: s := by
  induction p generalizing s with
  | nil => simp [startsWithStr]
  | cons a pas ih =>
    cases s with
    | nil => simp [startsWithStr]
    | cons b bs =>
      rw [startsWithStr, List.cons_prefix_cons]
      simp [ih]

theorem containsStr_iff {p s : Str} : containsStr s p = true ↔ p <:+: s := by
  induction s with
  | nil =>
    rw [containsStr]
    simp [startsWithStr_iff, List.infix_nil]
  | cons b bs ih =>
    rw [containsStr, List.infix_cons_iff]
    simp [startsWithStr_iff, ih]

theorem dropWhile_isWs_idem (l : Str) :
    (l.dropWhile isWs).dropWhile isWs = l.dropWhile isWs := by
  induction l with
  | nil => rfl
  | cons a as ih =>
    by_cases h : isWs a = true
    · simp [List.dropWhile_cons, h, ih]
    · simp [List.dropWhile_cons, h]

theorem trimEnd_idem (s : Str) : trimEnd (trimEnd s) = trimEnd s := by
  unfold trimEnd
  rw [List.reverse_reverse, dropWhile_isWs_idem]

theorem trimEnd_append (a b : Str) :
    trimEnd (a ++ b) =
      if (trimEnd b).isEmpty then trimEnd a else a ++ trimEnd b := by
  by_cases h : (trimEnd b).isEmpty = true
  · have hb : List.dropWhile isWs b.reverse = [] := by
      have h2 := List.isEmpty_iff.mp h
      rw [trimEnd] at h2
      exact List.reverse_eq_nil_iff.mp h2
    rw [if_pos h]
    unfold trimEnd
    rw [List.reverse_append, List.dropWhile_append, hb]
    simp
  · have hb : ¬(List.dropWhile isWs b.reverse).isEmpty = true := by
      intro hcon
      apply h
      rw [trimEnd, List.isEmpty_iff, List.reverse_eq_nil_iff]
      exact List.isEmpty_iff.mp hcon
    rw [if_neg h]
    unfold trimEnd
    rw [List.reverse_append, List.dropWhile_append]
    simp only [hb, if_false]
    simp [List.reverse_append]

theorem trimEnd_prefix_self (s : Str) : trimEnd s <+: s := by
  have h : (trimEnd s).reverse <:+ s.reverse := by
    rw [trimEnd, List.reverse_reverse]
    exact ⟨s.reverse.takeWhile isWs, List.takeWhile_append_dropWhile isWs s.reverse⟩
  exact List.reverse_suffix.mp h

theorem trimEnd_prefix_mono {c s : Str} (h : trimEnd c <+: s) :
    trimEnd c <+: trimEnd s := by
  obtain ⟨r, hr⟩ := h
  rw [← hr, trimEnd_append]
  by_cases he : (trimEnd r).isEmpty
  · simp [he, trimEnd_idem]
  · simp [he]

theorem infix_reverse_iff {p s : Str} : p.reverse <:+: s.reverse ↔ p <:+: s := by
  constructor
  · rintro ⟨u, v, h⟩
    refine ⟨v.reverse, u.reverse, ?_⟩
    have h2 := congrArg List.reverse h
    simpa [List.reverse_append, List.append_assoc] using h2
  · rintro ⟨u, v, h⟩
    refine ⟨v.reverse, u.reverse, ?_⟩
    have h2 := congrArg List.reverse h
    simpa [List.reverse_append, List.append_assoc] using h2

theorem infix_dropWhile_isWs {q : Str}
    (hq : ∀ a, q.head? = some a → isWs a = false) :
    ∀ {l : Str}, q <:+: l → q <:+: l.dropWhile isWs := by
  intro l
  induction l with
  | nil =>
    intro h
    rw [List.infix_nil] at h
    exact ⟨[], [], by simp [h]⟩
  | cons b bs ih =>
    intro h
    rw [List.dropWhile_cons]
    by_cases hb : isWs b = true
    · simp only [hb, if_true]
      rcases List.infix_cons_iff.mp h with hpre | hinf
      · cases q with
        | nil => exact ⟨[], List.dropWhile isWs bs, by simp⟩
        | cons x xs =>
          have hx : x = b := (List.cons_prefix_cons.mp hpre).1
          have hws := hq x rfl
          rw [hx, hb] at hws
          cases hws
      · exact ih hinf
    · simp only [hb, if_false]
      exact h

theorem infix_trimEnd_of_wsFree {p c : Str} (hp : ∀ a ∈ p, isWs a = false)
    (h : p <:+: c) : p <:+: trimEnd c := by
  rw [← infix_reverse_iff] at h
  have hq : ∀ a, p.reverse.head? = some a → isWs a = false := by
    intro a ha
    apply hp
    rw [← List.mem_reverse]
    cases hrev : p.reverse with
    | nil => rw [hrev] at ha; simp at ha
    | cons x xs =>
      rw [hrev] at ha
      injection ha with hxa
      rw [← hxa]
      exact List.mem_cons_self x xs
  have h2 : p.reverse <:+: c.reverse.dropWhile isWs := infix_dropWhile_isWs hq h
  have h3 : p <:+: trimEnd c := by
    rw [← infix_reverse_iff, trimEnd, List.reverse_reverse]
    exact h2
  exact h3

/-! ### Merge-loop lemmas -/

theorem containsStr_insertStep {p c : Str} {q : Entry × Int}
    (hp : ∀ a ∈ p, isWs a = false) (h : containsStr c p = true) :
    containsStr (insertStep c q) p = true := by
  rw [containsStr_iff] at h ⊢
  obtain ⟨u, v, huv⟩ := infix_trimEnd_of_wsFree hp h
  refine ⟨u, v ++ newEntryLine q.1 q.2, ?_⟩
  rw [insertStep, ← huv]
  simp [List.append_assoc]

theorem mergeLoop_contains {p : Str} (hp : ∀ a ∈ p, isWs a = false) :
    ∀ (l : List Entry) (c out : Str), mergeLoop l c = some out →
      containsStr c p = true → containsStr out p = true
  | [], c, out, hout, h => by
    rw [mergeLoop] at hout
    injection hout with hco
    rw [← hco]
    exact h
  | e :: rest, c, out, hout, h => by
    rw [mergeLoop] at hout
    by_cases hc : containsStr c e.link = true
    · rw [if_pos hc] at hout
      exact mergeLoop_contains hp rest c out hout h
    · rw [if_neg hc] at hout
      cases hd : e.date with
      | none => rw [hd] at hout; exact Option.noConfusion hout
      | some t =>
        rw [hd] at hout
        exact mergeLoop_contains hp rest _ out hout
          (containsStr_insertStep hp h)

theorem containsStr_insertStep_self (c : Str) (e : Entry) (t : Int) :
    containsStr (insertStep c (e, t)) e.link = true := by
  rw [containsStr_iff, insertStep]
  refine ⟨trimEnd c ++
      (lit ("\n- [ ] [") ++
        (if e.title.isEmpty then isoDatePart t else e.title) ++
        lit ("](")),
    lit (") [site:: ") ++ e.domain ++ lit ("]") ++
      (lit (" ➕ ") ++ isoDatePart t) ++ lit ("\n"), ?_⟩
  rw [newEntryLine]
  simp [List.append_assoc]

theorem mergeLoop_contains_all :
    ∀ (l : List Entry) (c out : Str),
      (∀ e ∈ l, ∀ a ∈ e.link, isWs a = false) →
      mergeLoop l c = some out →
      ∀ e ∈ l, containsStr out e.link = true
  | [], _, _, _, _, e, he => absurd he (List.not_mem_nil e)
  | f :: rest, c, out, hws, hout, e, he => by
    rw [mergeLoop] at hout
    by_cases hc : containsStr c f.link = true
    · rw [if_pos hc] at hout
      rcases List.mem_cons.mp he with he1 | he2
      · subst he1
        exact mergeLoop_contains (hws e (List.mem_cons_self e rest)) rest c
          out hout hc
      · exact mergeLoop_contains_all rest c out
          (fun x hx => hws x (List.mem_cons_of_mem f hx)) hout e he2
    · rw [if_neg hc] at hout
      cases hd : f.date with
      | none => rw [hd] at hout; exact Option.noConfusion hout
      | some t =>
        rw [hd] at hout
        rcases List.mem_cons.mp he with he1 | he2
        · subst he1
          exact mergeLoop_contains (hws e (List.mem_cons_self e rest)) rest _
            out hout (containsStr_insertStep_self c e t)
        · exact mergeLoop_contains_all rest _ out
            (fun x hx => hws x (List.mem_cons_of_mem f hx)) hout e he2

theorem mergeLoop_noop :
    ∀ (l : List Entry) (c : Str),
      (∀ e ∈ l, containsStr c e.link = true) → mergeLoop l c = some c
  | [], _, _ => rfl
  | e :: rest, c, h => by
    rw [mergeLoop]
    have hc : containsStr c e.link = true := h e (List.mem_cons_self e rest)
    rw [if_pos hc]
    exact mergeLoop_noop rest c (fun x hx => h x (List.mem_cons_of_mem e hx))

theorem mergeLoop_characterization :
    ∀ (l : List Entry) (c : Str),
      mergeLoop l c =
        if mergeThrows l c then none
        else some ((insertedEntries l c).foldl insertStep c)
  | [], _ => rfl
  | e :: rest, c => by
    rw [mergeLoop, mergeThrows, insertedEntries]
    by_cases hc : containsStr c e.link = true
    · rw [if_pos hc, if_pos hc, if_pos hc]
      exact mergeLoop_characterization rest c
    · rw [if_neg hc, if_neg hc, if_neg hc]
      cases e.date with
      | none => rfl
      | some t =>
        rw [List.foldl_cons]
        exact mergeLoop_characterization rest (insertStep c (e, t))

theorem mergeLoop_eq_foldl {l : List Entry} {c out : Str}
    (h : mergeLoop l c = some out) :
    out = (insertedEntries l c).foldl insertStep c := by
  rw [mergeLoop_characterization] at h
  by_cases ht : mergeThrows l c = true
  · rw [if_pos ht] at h
    exact Option.noConfusion h
  · rw [if_neg ht] at h
    injection h with h2
    exact h2.symm

theorem insertedEntries_fst_sublist :
    ∀ (l : List Entry) (c : Str),
      List.Sublist ((insertedEntries l c).map Prod.fst) l
  | [], _ => List.Sublist.refl []
  | e :: rest, c => by
    rw [insertedEntries]
    by_cases hc : containsStr c e.link = true
    · rw [if_pos hc]
      exact (insertedEntries_fst_sublist rest c).cons e
    · rw [if_neg hc]
      cases e.date with
      | none => exact List.nil_sublist _
      | some t =>
        rw [List.map_cons]
        exact (insertedEntries_fst_sublist rest (insertStep c (e, t))).cons₂ e

theorem trimEnd_prefix_mergeLoop (c : Str) :
    ∀ (l : List Entry) (c' out : Str), mergeLoop l c' = some out →
      trimEnd c <+: c' → trimEnd c <+: out
  | [], c', out, hout, h => by
    rw [mergeLoop] at hout
    injection hout with hco
    rw [← hco]
    exact h
  | e :: rest, c', out, hout, h => by
    rw [mergeLoop] at hout
    by_cases hc : containsStr c' e.link = true
    · rw [if_pos hc] at hout
      exact trimEnd_prefix_mergeLoop c rest c' out hout h
    · rw [if_neg hc] at hout
      cases hd : e.date with
      | none => rw [hd] at hout; exact Option.noConfusion hout
      | some t =>
        rw [hd] at hout
        refine trimEnd_prefix_mergeLoop c rest _ out hout ?_
        exact (trimEnd_prefix_mono h).trans (List.prefix_append _ _)

theorem containsStr_nil_pattern (c : Str) : containsStr c [] = true := by
  cases c <;> rfl

theorem mergeLoop_skips_empty_link {e : Entry} (he : e.link = []) :
    ∀ (l1 l2 : List Entry) (c : Str),
      mergeLoop (l1 ++ e :: l2) c = mergeLoop (l1 ++ l2) c
  | [], l2, c => by
    rw [List.nil_append, List.nil_append, mergeLoop]
    have hc : containsStr c e.link = true := by
      rw [he]; exact containsStr_nil_pattern c
    rw [if_pos hc]
  | f :: l1, l2, c => by
    rw [List.cons_append, List.cons_append, mergeLoop, mergeLoop]
    by_cases hc : containsStr c f.link = true
    · rw [if_pos hc, if_pos hc]
      exact mergeLoop_skips_empty_link he l1 l2 c
    · rw [if_neg hc, if_neg hc]
      cases f.date with
      | none => rfl
      | some t =>
        exact mergeLoop_skips_empty_link he l1 l2 (insertStep c (f, t))

/-! ### Filter and orchestrator lemmas -/

theorem fetchLoop_eq_filter_map (domain : Str) (w : Int) :
    ∀ es : List RawEntry,
      fetchFeedEntriesLoop domain w es =
        (es.filter (fun e =>
            !dateLtB e.published w && !isBlacklisted e.link e.title)).map
          (normalizeEntry domain)
  | [] => rfl
  | e :: rest => by
    rw [fetchFeedEntriesLoop, List.filter_cons]
    by_cases h1 : dateLtB e.published w = true
    · simp [h1, fetchLoop_eq_filter_map domain w rest]
    · rw [Bool.not_eq_true] at h1
      by_cases h2 : isBlacklisted e.link e.title = true
      · simp [h1, h2, fetchLoop_eq_filter_map domain w rest]
      · rw [Bool.not_eq_true] at h2
        simp [h1, h2, fetchLoop_eq_filter_map domain w rest]

theorem collectEntries_append (fetch : String → Option (List Entry)) :
    ∀ (a b : List String),
      collectEntries fetch (a ++ b) =
        collectEntries fetch a ++ collectEntries fetch b
  | [], _ => rfl
  | f :: a, b => by
    rw [List.cons_append, collectEntries, collectEntries,
      collectEntries_append fetch a b, List.append_assoc]

/-! ### Line-splitting lemmas -/

theorem splitLines_ne_nil (s : Str) : splitLines s ≠ [] := by
  cases s with
  | nil => simp [splitLines]
  | cons c cs =>
    rw [splitLines]
    by_cases h : c = '\n'
    · simp [h]
    · simp only [h, if_false]
      cases splitLines cs <;> simp

theorem not_mem_nl_splitLines (s : Str) : ∀ l ∈ splitLines s, '\n' ∉ l := by
  induction s with
  | nil =>
    intro l hl
    rw [splitLines, List.mem_singleton] at hl
    simp [hl]
  | cons c cs ih =>
    intro l hl
    rw [splitLines] at hl
    by_cases h : c = '\n'
    · rw [if_pos h] at hl
      rcases List.mem_cons.mp hl with h1 | h2
      · simp [h1]
      · exact ih l h2
    · rw [if_neg h] at hl
      cases hcs : splitLines cs with
      | nil => exact absurd hcs (splitLines_ne_nil cs)
      | cons m ms =>
        rw [hcs] at hl
        rcases List.mem_cons.mp hl with h1 | h2
        · subst h1
          intro hmem
          rcases List.mem_cons.mp hmem with h3 | h4
          · exact h h3.symm
          · exact ih m (hcs ▸ List.mem_cons_self m ms) h4
        · exact ih l (hcs ▸ List.mem_cons_of_mem m h2)

theorem splitLines_of_no_nl : ∀ {l : Str}, '\n' ∉ l → splitLines l = [l]
  | [], _ => rfl
  | c :: cs, h => by
    have hc : ¬c = '\n' := fun hc => h (hc ▸ List.mem_cons_self c cs)
    rw [splitLines, if_neg hc,
      splitLines_of_no_nl (fun hm => h (List.mem_cons_of_mem c hm))]

theorem splitLines_append_cons :
    ∀ {l : Str} (r : Str), '\n' ∉ l →
      splitLines (l ++ '\n' :: r) = l :: splitLines r
  | [], r, _ => by rw [List.nil_append, splitLines, if_pos rfl]
  | c :: cs, r, h => by
    have hc : ¬c = '\n' := fun hc => h (hc ▸ List.mem_cons_self c cs)
    rw [List.cons_append, splitLines, if_neg hc,
      splitLines_append_cons r (fun hm => h (List.mem_cons_of_mem c hm))]

theorem splitLines_joinLines :
    ∀ {ls : List Str}, ls ≠ [] → (∀ l ∈ ls, '\n' ∉ l) →
      splitLines (joinLines ls) = ls
  | [], h, _ => absurd rfl h
  | [l], _, hnl => by
    rw [joinLines, splitLines_of_no_nl (hnl l (List.mem_singleton.mpr rfl))]
  | l :: m :: ls, _, hnl => by
    have hne : m :: ls ≠ [] := by simp
    have hj : joinLines (l :: m :: ls) = l ++ '\n' :: joinLines (m :: ls) := rfl
    rw [hj, splitLines_append_cons _ (hnl l (List.mem_cons_self l _))]
    congr 1
    exact splitLines_joinLines hne
      (fun x hx => hnl x (List.mem_cons_of_mem l hx))

/-! ### Claim theorems -/

/-- C1 (corrected): merging twice with a fixed entry list equals merging
once, for every content string, every entry list in which no entry's link
contains a (JavaScript) whitespace character, and every output the first
merge returns: every link then occurs in that output, so the second merge
skips every entry and returns it unchanged.  (As stated over arbitrary links
the claim fails — see the counterexample: a link ending in whitespace can be
erased from the content by the trimming that accompanies a later
insertion.) -/
theorem c1_merge_idempotent_of_wsFree_links (entries : List Entry)
    (content out : Str)
    (h : ∀ e ∈ entries, ∀ a ∈ e.link, isWs a = false)
    (hout : mergeEntriesWithContent entries content = some out) :
    mergeEntriesWithContent entries out = some out := by
  unfold mergeEntriesWithContent at hout ⊢
  apply mergeLoop_noop
  intro e he
  exact mergeLoop_contains_all entries.reverse content out
    (fun x hx => h x (List.mem_reverse.mp hx)) hout e he

/-- C1 counterexample: with content `"x "` and entries whose links are `"q"`
and `"x "` (note the trailing space), the first merge skips the `"x "` entry
because the content contains its link, but inserting the `"q"` entry trims
the trailing space away, so a second merge with the same entries inserts the
`"x "` entry: `merge(merge(content, entries), entries)` differs from
`merge(content, entries)`. -/
theorem c1_counterexample :
    mergeEntriesWithContent
        [⟨lit ("d"), lit ("q"), lit ("B"), some 1704067200000⟩,
         ⟨lit ("d"), lit ("x "), lit ("A"), some 1704067200000⟩]
        (lit ("x ")) =
      some (lit ("x\n- [ ] [B](q) [site:: d] ➕ 2024-01-01\n")) ∧
    mergeEntriesWithContent
        [⟨lit ("d"), lit ("q"), lit ("B"), some 1704067200000⟩,
         ⟨lit ("d"), lit ("x "), lit ("A"), some 1704067200000⟩]
        (lit ("x\n- [ ] [B](q) [site:: d] ➕ 2024-01-01\n")) ≠
      some (lit ("x\n- [ ] [B](q) [site:: d] ➕ 2024-01-01\n")) :=
  ⟨by decide, by decide⟩

/-- C1 witness: the idempotence theorem applied at a concrete content and a
concrete entry whose link is whitespace-free. -/
theorem c1_witness :
    (∀ e ∈ [(⟨lit ("n.com"), lit ("https://n"), lit ("New"),
        some 1704153600000⟩ : Entry)], ∀ a ∈ e.link, isWs a = false) ∧
    mergeEntriesWithContent
        [⟨lit ("n.com"), lit ("https://n"), lit ("New"), some 1704153600000⟩]
        (lit ("hello")) =
      some (lit
        ("hello\n- [ ] [New](https://n) [site:: n.com] ➕ 2024-01-02\n")) ∧
    mergeEntriesWithContent
        [⟨lit ("n.com"), lit ("https://n"), lit ("New"), some 1704153600000⟩]
        (lit
          ("hello\n- [ ] [New](https://n) [site:: n.com] ➕ 2024-01-02\n")) =
      some (lit
        ("hello\n- [ ] [New](https://n) [site:: n.com] ➕ 2024-01-02\n")) :=
  ⟨by decide, by decide,
    c1_merge_idempotent_of_wsFree_links _ (lit ("hello")) _ (by decide)
      (by decide)⟩

/-- C2 (corrected): the merge loop processes entries in the reverse of the
input-list order, so the inserted checklist lines read oldest-to-newest
exactly when the input list is ordered newest-first: if the entry list is
sorted non-increasingly by published timestamp, then the sequence of entries
the merge inserts is sorted non-decreasingly by published timestamp, and the
output is the input content with those entries' lines appended in that order.
(As stated — chronological output for every input order — the claim fails;
see the counterexample.) -/
theorem c2_merge_chronological_of_newest_first (entries : List Entry)
    (content : Str)
    (h : List.Pairwise (fun a b => dateLeB b.date a.date = true) entries) :
    List.Pairwise (fun a b => dateLeB a.date b.date = true)
        ((insertedEntries entries.reverse content).map Prod.fst) ∧
      mergeEntriesWithContent entries content =
        (if mergeThrows entries.reverse content then none
         else some
          ((insertedEntries entries.reverse content).foldl insertStep
            content)) := by
  constructor
  · have h1 : List.Pairwise (fun a b => dateLeB a.date b.date = true)
        entries.reverse := by
      rw [List.pairwise_reverse]
      exact h
    exact List.Pairwise.sublist
      (insertedEntries_fst_sublist entries.reverse content) h1
  · exact mergeLoop_characterization entries.reverse content

/-- C2 counterexample: with the input list ordered oldest-first (not
newest-first), the merge inserts the newer entry's checklist line before the
older entry's line: the insertion sequence is the reversed input, whose first
entry is dated after its second, so the inserted lines are not in
oldest-to-newest order of their published timestamps. -/
theorem c2_counterexample :
    mergeEntriesWithContent
        [⟨lit ("o.com"), lit ("https://o"), lit ("Old"), some 1704067200000⟩,
         ⟨lit ("n.com"), lit ("https://n"), lit ("New"), some 1704153600000⟩]
        [] =
      some (lit ("\n- [ ] [New](https://n) [site:: n.com] ➕ 2024-01-02\n- [ ] [Old](https://o) [site:: o.com] ➕ 2024-01-01\n")) ∧
    insertedEntries
        ([⟨lit ("o.com"), lit ("https://o"), lit ("Old"), some 1704067200000⟩,
          ⟨lit ("n.com"), lit ("https://n"), lit ("New"), some 1704153600000⟩] :
            List Entry).reverse [] =
      [(⟨lit ("n.com"), lit ("https://n"), lit ("New"), some 1704153600000⟩,
          1704153600000),
       (⟨lit ("o.com"), lit ("https://o"), lit ("Old"), some 1704067200000⟩,
          1704067200000)] ∧
    dateLeB (some 1704153600000) (some 1704067200000) = false := by
  refine ⟨by decide, by decide, by decide⟩

/-- C2 witness: the ordering theorem applied to a concrete newest-first entry
list. -/
theorem c2_witness :
    List.Pairwise (fun a b => dateLeB b.date a.date = true)
        [(⟨lit ("n.com"), lit ("https://n"), lit ("New"),
            some 1704153600000⟩ : Entry),
         ⟨lit ("o.com"), lit ("https://o"), lit ("Old"), some 1704067200000⟩] ∧
    (List.Pairwise (fun a b => dateLeB a.date b.date = true)
        ((insertedEntries
          ([(⟨lit ("n.com"), lit ("https://n"), lit ("New"),
              some 1704153600000⟩ : Entry),
            ⟨lit ("o.com"), lit ("https://o"), lit ("Old"),
              some 1704067200000⟩] : List Entry).reverse
          (lit ("note"))).map Prod.fst) ∧
      mergeEntriesWithContent
          [(⟨lit ("n.com"), lit ("https://n"), lit ("New"),
              some 1704153600000⟩ : Entry),
           ⟨lit ("o.com"), lit ("https://o"), lit ("Old"),
             some 1704067200000⟩] (lit ("note")) =
        (if mergeThrows
            ([(⟨lit ("n.com"), lit ("https://n"), lit ("New"),
                some 1704153600000⟩ : Entry),
              ⟨lit ("o.com"), lit ("https://o"), lit ("Old"),
                some 1704067200000⟩] : List Entry).reverse (lit ("note"))
         then none
         else some
          ((insertedEntries
            ([(⟨lit ("n.com"), lit ("https://n"), lit ("New"),
                some 1704153600000⟩ : Entry),
              ⟨lit ("o.com"), lit ("https://o"), lit ("Old"),
                some 1704067200000⟩] : List Entry).reverse
            (lit ("note"))).foldl insertStep (lit ("note"))))) :=
  ⟨by decide, c2_merge_chronological_of_newest_first _ _ (by decide)⟩

/-- C3 (corrected): the fetch filter outputs exactly the normalized forms of
the input entries whose published timestamp is not strictly below the
watermark (so entries with an absent or unparseable timestamp always pass)
and that are not blacklisted, preserving the input order; for entries with a
valid timestamp the cutoff is equivalent to `published >= watermark`.  (With
the spec's literal `published >= watermark` cutoff the claim fails on entries
with an invalid timestamp — see the counterexample.) -/
theorem c3_filter_characterization (domain : Str) (w : Int)
    (es : List RawEntry) :
    fetchFeedEntriesLoop domain w es =
      (es.filter (fun e =>
          !dateLtB e.published w && !isBlacklisted e.link e.title)).map
        (normalizeEntry domain) ∧
    ∀ t : Int, (!dateLtB (some t) w) = decide (w ≤ t) := by
  refine ⟨fetchLoop_eq_filter_map domain w es, ?_⟩
  intro t
  show (!decide (t < w)) = decide (w ≤ t)
  rw [← decide_not]
  exact decide_eq_decide.mpr Int.not_lt

/-- C3 counterexample: an entry whose published timestamp is the invalid date
is kept by the code's filter at watermark 0 (the strict `<` comparison
against `NaN` is false), while the Entry Filter as the spec words it
(`published >= watermark`, equally false on `NaN`) drops it: the code is not
the spec-worded filter. -/
theorem c3_counterexample :
    fetchFeedEntriesLoop (lit ("d")) 0
        [⟨some (lit ("https://x")), some (lit ("t")), none⟩] ≠
      specFilterEntries (lit ("d")) 0
        [⟨some (lit ("https://x")), some (lit ("t")), none⟩] := by decide

/-- C4 (confirmed): cleanup splits the content into lines and keeps exactly
the lines that do not both start with the complete marker `"- [x]"` and lack
the completion token `"✅ <current date>"`, in their original relative order:
whenever at least one line is kept, splitting the output recovers exactly the
kept lines; the kept lines are an order-preserving selection (sublist) of the
input lines; and a line is dropped iff it starts with the marker and lacks
the token. -/
theorem c4_cleanup_spec (content : Str) (currentTime : Int)
    (h : (splitLines content).filter (keepLine (isoDatePart currentTime)) ≠
      []) :
    splitLines (removeOldEntries content currentTime) =
      (splitLines content).filter (keepLine (isoDatePart currentTime)) ∧
    List.Sublist
      ((splitLines content).filter (keepLine (isoDatePart currentTime)))
      (splitLines content) ∧
    ∀ l : Str, keepLine (isoDatePart currentTime) l = false ↔
      (startsWithStr l (lit ("- [x]")) = true ∧
        containsStr l (lit ("✅ ") ++ isoDatePart currentTime) = false) := by
  refine ⟨?_, List.filter_sublist _, ?_⟩
  · show splitLines
        (joinLines
          ((splitLines content).filter (keepLine (isoDatePart currentTime)))) =
      _
    exact splitLines_joinLines h
      (fun l hl => not_mem_nl_splitLines content l (List.mem_of_mem_filter hl))
  · intro l
    rw [keepLine]
    cases hs : startsWithStr l (lit ("- [x]")) <;>
      cases hc : containsStr l (lit ("✅ ") ++ isoDatePart currentTime) <;>
        simp

/-- C4 witness: the cleanup theorem applied to a concrete two-line content at
current time 2024-01-02: the stale complete line is dropped and the other
line kept. -/
theorem c4_witness :
    (splitLines (lit ("- [x] a ✅ 2024-01-01\nkeep"))).filter
        (keepLine (isoDatePart 1704153600000)) ≠ [] ∧
    (splitLines
        (removeOldEntries (lit ("- [x] a ✅ 2024-01-01\nkeep"))
          1704153600000) =
      (splitLines (lit ("- [x] a ✅ 2024-01-01\nkeep"))).filter
        (keepLine (isoDatePart 1704153600000)) ∧
    List.Sublist
      ((splitLines (lit ("- [x] a ✅ 2024-01-01\nkeep"))).filter
        (keepLine (isoDatePart 1704153600000)))
      (splitLines (lit ("- [x] a ✅ 2024-01-01\nkeep"))) ∧
    ∀ l : Str, keepLine (isoDatePart 1704153600000) l = false ↔
      (startsWithStr l (lit ("- [x]")) = true ∧
        containsStr l (lit ("✅ ") ++ isoDatePart 1704153600000) = false)) :=
  ⟨by decide, c4_cleanup_spec _ _ (by decide)⟩

/-- C5 (confirmed): the scheduling gate of `run` marks a document due exactly
when `now >= watermark + interval` with the fixed one-hour interval
(3600000 ms); in particular a document with watermark 2024-01-01T00:00Z is
due at now = 2024-01-01T02:00Z. -/
theorem c5_isDue_iff (now lastSynced : Int) :
    (isDue now lastSynced = true ↔ lastSynced + 60 * 60 * 1000 ≤ now) ∧
    isDue 1704074400000 1704067200000 = true := by
  constructor
  · simp [isDue, Int.not_lt]
  · decide

/-- C6 (confirmed): a document's stored watermark never decreases across a
sync cycle: the per-document step either leaves the stored watermark
unchanged (the document was skipped, the merge threw and aborted the
document before any write, or the frontmatter update threw and was caught)
or writes the cycle's `now`, which is at least the watermark read at the
start of the cycle (the due-gate guarantees `now` is at least one hour past
it); it is never rolled back. -/
theorem c6_watermark_monotone (now dateNow : Int)
    (fetch : String → Option (List Entry)) (updateOk : Bool) (doc : Doc) :
    (processDoc now dateNow fetch updateOk doc).doc.syncedMeta =
      doc.syncedMeta ∨
      ((processDoc now dateNow fetch updateOk doc).doc.syncedMeta =
          some now ∧
        getSyncedTime dateNow doc.syncedMeta ≤ now) := by
  simp only [processDoc]
  split
  · exact Or.inl rfl
  · split
    · exact Or.inl rfl
    · split
      · exact Or.inl rfl
      · cases updateOk with
        | false => exact Or.inl rfl
        | true =>
          right
          refine ⟨by simp, ?_⟩
          omega

/-- C7 (confirmed): whenever the merge returns (it throws a `RangeError`
instead of returning when it tries to render an invalid date), it preserves
the existing text verbatim up to trimming its trailing whitespace — the
trimmed original content is a prefix of the output — and the output is
exactly the original content with the checklist line of each inserted entry
appended in turn by `insertStep` (trim trailing whitespace, then append the
line); every appended line is built from a valid timestamp `t` as the
well-formed `"\n- [ ] [<title>](<link>) [site:: <domain>] ➕ <date t>\n"`
with the title falling back to the entry's ISO date portion when empty. -/
theorem c7_merge_frame (entries : List Entry) (content : Str) :
    (∀ out : Str, mergeEntriesWithContent entries content = some out →
      trimEnd content <+: out ∧
      out =
        (insertedEntries entries.reverse content).foldl insertStep content) ∧
    ∀ (e : Entry) (t : Int), newEntryLine e t =
      lit ("\n- [ ] [") ++
        (if e.title.isEmpty then isoDatePart t else e.title) ++
        lit ("](") ++ e.link ++ lit (") [site:: ") ++ e.domain ++ lit ("]") ++
        (lit (" ➕ ") ++ isoDatePart t) ++ lit ("\n") := by
  refine ⟨?_, fun e t => rfl⟩
  intro out hout
  refine ⟨trimEnd_prefix_mergeLoop content entries.reverse content out hout
    (trimEnd_prefix_self content), mergeLoop_eq_foldl hout⟩

/-- C7 witness: the frame theorem applied at a concrete content and entry
list whose merge returns. -/
theorem c7_witness :
    mergeEntriesWithContent
        [⟨lit ("n.com"), lit ("https://n"), lit ("New"), some 1704153600000⟩]
        (lit ("hello ")) =
      some (lit
        ("hello\n- [ ] [New](https://n) [site:: n.com] ➕ 2024-01-02\n")) ∧
    (trimEnd (lit ("hello ")) <+:
      lit ("hello\n- [ ] [New](https://n) [site:: n.com] ➕ 2024-01-02\n") ∧
    lit ("hello\n- [ ] [New](https://n) [site:: n.com] ➕ 2024-01-02\n") =
      (insertedEntries
        ([⟨lit ("n.com"), lit ("https://n"), lit ("New"),
          some 1704153600000⟩] : List Entry).reverse
        (lit ("hello "))).foldl insertStep (lit ("hello "))) :=
  ⟨by decide,
    (c7_merge_frame
      [⟨lit ("n.com"), lit ("https://n"), lit ("New"), some 1704153600000⟩]
      (lit ("hello "))).1
      (lit ("hello\n- [ ] [New](https://n) [site:: n.com] ➕ 2024-01-02\n"))
      (by decide)⟩

/-- C8 (corrected): within one document's sync, a failing feed (the fetch
oracle throws; `run` catches, records and continues) at any position of the
feed list only loses that feed's entries, PROVIDED the merge of the
surviving feeds' entries returns: then the entries of all feeds before and
after the failing one are merged, cleanup runs, and the watermark is
advanced to `now`.  (Unconditionally the claim fails: a healthy sibling feed
returning a fresh-linked entry with an invalid date makes the merge throw an
uncaught `RangeError`, aborting the document with no content write and no
watermark advance — see the counterexample.) -/
theorem c8_feed_failure_isolated (now dateNow : Int)
    (fetch : String → Option (List Entry)) (doc : Doc)
    (l1 l2 : List String) (bad : String) (merged : Str)
    (hfeeds : doc.feeds = some (l1 ++ bad :: l2))
    (hbad : fetch bad = none)
    (hdue : getSyncedTime dateNow doc.syncedMeta + 60 * 60 * 1000 ≤ now)
    (hmerge : mergeEntriesWithContent
        (collectEntries fetch l1 ++ collectEntries fetch l2) doc.content =
      some merged) :
    processDoc now dateNow fetch true doc =
      ⟨{ syncedMeta := some now
         feeds := doc.feeds
         content := removeOldEntries merged now }, false⟩ := by
  have hgate : ¬now < getSyncedTime dateNow doc.syncedMeta + 60 * 60 * 1000 :=
    Int.not_lt.mpr hdue
  have hcoll : collectEntries fetch (l1 ++ bad :: l2) =
      collectEntries fetch l1 ++ collectEntries fetch l2 := by
    rw [collectEntries_append, collectEntries, hbad]
    rfl
  simp only [processDoc]
  rw [if_neg hgate, hfeeds]
  simp only [hcoll]
  rw [hmerge]
  simp

/-- C8 counterexample: a due document whose feed list holds a healthy feed
and then a failing feed; the healthy feed returns a fresh-linked entry whose
published date is invalid.  The per-feed catch handles the failing feed, but
the merge then throws an uncaught `RangeError` rendering the invalid date,
so `run` aborts this document: the other feed's entries are not merged and
the watermark is NOT advanced (it stays at its old value instead of the
cycle's `now`), contradicting the claim. -/
theorem c8_counterexample :
    processDoc 3600000 0
        (fun f => if f = "bad" then none
         else some [(⟨lit ("n.com"), lit ("https://n"), lit ("New"),
            none⟩ : Entry)])
        true (⟨some 0, some ("good" :: "bad" :: []), lit ("note")⟩ : Doc) =
      ⟨⟨some 0, some ("good" :: "bad" :: []), lit ("note")⟩, true⟩ ∧
    (⟨some 0, some ("good" :: "bad" :: []), lit ("note")⟩ : Doc).feeds =
      some (["good"] ++ "bad" :: []) ∧
    (fun f => if f = "bad" then none
      else some [(⟨lit ("n.com"), lit ("https://n"), lit ("New"),
        none⟩ : Entry)]) "bad" = none ∧
    getSyncedTime 0
        (⟨some 0, some ("good" :: "bad" :: []), lit ("note")⟩ :
          Doc).syncedMeta + 60 * 60 * 1000 ≤ 3600000 :=
  ⟨by decide, by decide, by decide, by decide⟩

/-- C8 witness: the isolation theorem applied to a document with a good feed
(returning a valid-dated entry) followed by a failing feed, under a fetch
oracle that throws exactly on the failing feed. -/
theorem c8_witness :
    ((⟨some 0, some ("good" :: "bad" :: []), lit ("note")⟩ : Doc).feeds =
      some (["good"] ++ "bad" :: []) ∧
    (fun f => if f = "bad" then none else
      some [(⟨lit ("n.com"), lit ("https://n"), lit ("New"),
        some 1704153600000⟩ : Entry)]) "bad" = none ∧
    getSyncedTime 0
        (⟨some 0, some ("good" :: "bad" :: []), lit ("note")⟩ :
          Doc).syncedMeta + 60 * 60 * 1000 ≤ 3600000 ∧
    mergeEntriesWithContent
        (collectEntries
          (fun f => if f = "bad" then none else
            some [(⟨lit ("n.com"), lit ("https://n"), lit ("New"),
              some 1704153600000⟩ : Entry)]) ["good"] ++
         collectEntries
          (fun f => if f = "bad" then none else
            some [(⟨lit ("n.com"), lit ("https://n"), lit ("New"),
              some 1704153600000⟩ : Entry)]) [])
        (lit ("note")) =
      some (lit
        ("note\n- [ ] [New](https://n) [site:: n.com] ➕ 2024-01-02\n"))) ∧
    processDoc 3600000 0
        (fun f => if f = "bad" then none else
          some [(⟨lit ("n.com"), lit ("https://n"), lit ("New"),
            some 1704153600000⟩ : Entry)]) true
        ⟨some 0, some ("good" :: "bad" :: []), lit ("note")⟩ =
      ⟨{ syncedMeta := some 3600000
         feeds := (⟨some 0, some ("good" :: "bad" :: []), lit ("note")⟩ :
           Doc).feeds
         content := removeOldEntries
           (lit
             ("note\n- [ ] [New](https://n) [site:: n.com] ➕ 2024-01-02\n"))
           3600000 }, false⟩ :=
  ⟨⟨by decide, by decide, by decide, by decide⟩,
    c8_feed_failure_isolated 3600000 0 _ _ ["good"] [] "bad" _ (by decide)
      (by decide) (by decide) (by decide)⟩

/-- C9 (confirmed): an entry whose publish timestamp is absent or
unparseable (modelled `published = none`, the invalid date) always passes the
watermark cutoff for every watermark — the strict less-than comparison
against the invalid date is false — so it is kept by the fetch filter
whenever it is not blacklisted. -/
theorem c9_invalid_timestamp_passes (domain : Str) (w : Int) (e : RawEntry)
    (es : List RawEntry) (h : e.published = none) :
    dateLtB e.published w = false ∧
    fetchFeedEntriesLoop domain w (e :: es) =
      (if isBlacklisted e.link e.title then fetchFeedEntriesLoop domain w es
       else normalizeEntry domain e :: fetchFeedEntriesLoop domain w es) := by
  have h1 : dateLtB e.published w = false := by rw [h]; rfl
  refine ⟨h1, ?_⟩
  rw [fetchFeedEntriesLoop, h1]
  simp

/-- C9 witness: the cutoff theorem applied to a concrete non-blacklisted
entry with an invalid timestamp and a large watermark. -/
theorem c9_witness :
    (⟨some (lit ("https://x")), some (lit ("t")), none⟩ :
      RawEntry).published = none ∧
    (dateLtB
        (⟨some (lit ("https://x")), some (lit ("t")), none⟩ :
          RawEntry).published 99999999999999 = false ∧
    fetchFeedEntriesLoop (lit ("d")) 99999999999999
        ((⟨some (lit ("https://x")), some (lit ("t")), none⟩ : RawEntry) ::
          []) =
      (if isBlacklisted
          (⟨some (lit ("https://x")), some (lit ("t")), none⟩ :
            RawEntry).link
          (⟨some (lit ("https://x")), some (lit ("t")), none⟩ :
            RawEntry).title then
        fetchFeedEntriesLoop (lit ("d")) 99999999999999 []
       else
        normalizeEntry (lit ("d"))
            (⟨some (lit ("https://x")), some (lit ("t")), none⟩ : RawEntry) ::
          fetchFeedEntriesLoop (lit ("d")) 99999999999999 [])) :=
  ⟨rfl, c9_invalid_timestamp_passes (lit ("d")) 99999999999999 _ [] rfl⟩

/-- C10 (confirmed): an entry whose link is the empty string is never
inserted by the merge, for every content and every position in the entry
list: the empty string occurs in every content, so the dedup check always
skips the entry and the result is as if the entry were absent. -/
theorem c10_empty_link_never_inserted (entries1 entries2 : List Entry)
    (e : Entry) (content : Str) (he : e.link = []) :
    mergeEntriesWithContent (entries1 ++ e :: entries2) content =
      mergeEntriesWithContent (entries1 ++ entries2) content := by
  unfold mergeEntriesWithContent
  rw [List.reverse_append, List.reverse_cons, List.reverse_append,
    List.append_assoc, List.singleton_append]
  exact mergeLoop_skips_empty_link he entries2.reverse entries1.reverse content

/-- C10 witness: the empty-link theorem applied at a concrete content and
entry list. -/
theorem c10_witness :
    (⟨lit ("d"), [], lit ("NoLink"), some 1704067200000⟩ : Entry).link = [] ∧
    mergeEntriesWithContent
        ([(⟨lit ("n.com"), lit ("https://n"), lit ("New"),
            some 1704153600000⟩ : Entry)] ++
          (⟨lit ("d"), [], lit ("NoLink"), some 1704067200000⟩ : Entry) :: [])
        (lit ("note")) =
      mergeEntriesWithContent
        ([(⟨lit ("n.com"), lit ("https://n"), lit ("New"),
            some 1704153600000⟩ : Entry)] ++ [])
        (lit ("note")) :=
  ⟨rfl, c10_empty_link_never_inserted _ [] _ _ rfl⟩

end ReadLater
